import Mathlib

/-!
Verification of `src/resources/learn_grammar.py` against its specification.

The repository's only source file is the ten-line function
`get_final_grammar(grammar, test_inputs)`, which constructs an
`EarleyParser` over the grammar, wraps it in a
`ProbabilisticGrammarMinerExtended`, calls
`mine_probabilistic_grammar(test_inputs)` and returns the result
unchanged.  The parser and the miner themselves live in external
libraries (`isla`, `evogfuzz`) and are not part of this repository, so
— following the specification, which reconstructs the mining
algorithm's design — those two collaborators are modelled here from the
spec's words, while `get_final_grammar` itself is embedded line by line
from the source.

All probabilities are represented exactly as rationals.
-/

namespace LearnGrammar

/-- A grammar symbol: a terminal or a nonterminal (nonterminals are
strings such as `"<start>"`). -/
inductive Symbol where
  | t  (s : String)
  | nt (s : String)
deriving DecidableEq, Repr

/-- One alternative of a production rule: a sequence of symbols. -/
abbrev Alternative := List Symbol

/-- A grammar: a mapping (association list) from nonterminal to its
ordered sequence of alternatives. -/
abbrev Grammar := List (String × List Alternative)

/-- A probabilistic grammar: each nonterminal's alternatives carry a
probability. -/
abbrev ProbGrammar := List (String × List (Alternative × ℚ))

/-- Modelled from the spec: a derivation tree ("a rooted tree where
each internal node is labeled with a nonterminal and records which
alternative (by index) was used to expand it; each leaf is labeled
with a terminal").  Produced by the external parsing collaborator,
which is not part of this repository. -/
inductive DTree where
  | leaf (s : String)
  | node (n : String) (alt : ℕ) (children : List DTree)
deriving Repr

/-- The external parsing capability: given an input string, either a
derivation tree or a parse failure (`none`). -/
abbrev ParseFun := String → Option DTree

mutual
/-- Modelled from the spec: the Choice Counter contribution of one
derivation tree — how many internal nodes labeled `N` used
alternative index `i`. -/
def DTree.choiceCount (N : String) (i : ℕ) : DTree → ℕ
  | .leaf _ => 0
  | .node n a cs => (if n = N ∧ a = i then 1 else 0) + choiceCountList N i cs

/-- Choice-count contribution of a list of subtrees. -/
def choiceCountList (N : String) (i : ℕ) : List DTree → ℕ
  | [] => 0
  | c :: cs => c.choiceCount N i + choiceCountList N i cs
end

/-- Modelled from the spec: the Choice Counter entry for `(N, i)`
accumulated across the derivation trees of all samples; a sample that
fails to parse contributes no counts. -/
def choiceCountSamples (p : ParseFun) (samples : List String) (N : String) (i : ℕ) : ℕ :=
  (samples.map (fun s =>
    match p s with
    | some tr => tr.choiceCount N i
    | none => 0)).sum

/-- The list of Choice Counter entries for the `n` alternatives of `N`. -/
def ruleCounts (p : ParseFun) (samples : List String) (N : String) (n : ℕ) : List ℕ :=
  (List.range n).map (fun i => choiceCountSamples p samples N i)

/-- Modelled from the spec: the uniform fallback distribution — each
alternative gets `1 / number_of_alternatives`. -/
def uniformRule (alts : List Alternative) : List (Alternative × ℚ) :=
  alts.map (fun a => (a, 1 / (alts.length : ℚ)))

/-- Modelled from the spec: normalization for one nonterminal `N`.
`total` is the sum of counts for `(N, *)` over all alternatives of
`N`; if `total > 0` each alternative `i` gets probability
`count(N,i) / total`, and if `total = 0` the uniform fallback is
used. -/
def mineRule (p : ParseFun) (samples : List String) (N : String)
    (alts : List Alternative) : List (Alternative × ℚ) :=
  if (ruleCounts p samples N alts.length).sum = 0 then uniformRule alts
  else
    alts.zip ((ruleCounts p samples N alts.length).map
      (fun c : ℕ => (c : ℚ) / ((ruleCounts p samples N alts.length).sum : ℚ)))

/-- Modelled from the spec: the mining step of
`ProbabilisticGrammarMinerExtended.mine_probabilistic_grammar`
(external library `evogfuzz`, not in this repository) — aggregate
choice counts over all samples' derivation trees, then normalize per
nonterminal. -/
def mineGrammar (g : Grammar) (p : ParseFun) (samples : List String) : ProbGrammar :=
  g.map (fun r => (r.1, mineRule p samples r.1 r.2))

/-- The grammar well-formedness invariant from the spec: every
nonterminal referenced in any alternative is a key of the mapping, and
the designated start symbol `"<start>"` is a key. -/
def wellFormed (g : Grammar) : Bool :=
  (g.lookup "<start>").isSome &&
  g.all (fun r => r.2.all (fun alt => alt.all (fun s =>
    match s with
    | .t _ => true
    | .nt n => (g.lookup n).isSome)))

/-- The single error surfaced to the caller. -/
inductive MineError where
  | malformedGrammar
deriving DecidableEq, Repr

/-- Modelled from the spec: the external `EarleyParser` (library
`isla`, not in this repository).  Construction validates the grammar
well-formedness invariant; a `MalformedGrammar` error is fatal and
surfaced before any mining begins.  The parsing behavior itself is the
abstract capability `p`. -/
structure EarleyParser where
  grammar : Grammar
  parse : ParseFun

/-- Modelled from the spec: `EarleyParser(grammar)` — fails with
`MalformedGrammar` on an ill-formed grammar, before any sample is
processed. -/
def EarleyParser.make (g : Grammar) (p : ParseFun) : Except MineError EarleyParser :=
  if wellFormed g then .ok ⟨g, p⟩ else .error .malformedGrammar

/-- Modelled from the spec: the miner object of the external library
`evogfuzz`; it wraps the parser it is constructed with. -/
structure ProbabilisticGrammarMinerExtended where
  parser : EarleyParser

/-- Modelled from the spec: `mine_probabilistic_grammar(samples)` —
parses each sample, absorbs per-sample parse failures, aggregates
counts and normalizes; it never raises. -/
def ProbabilisticGrammarMinerExtended.mine_probabilistic_grammar
    (m : ProbabilisticGrammarMinerExtended) (samples : List String) :
    Except MineError ProbGrammar :=
  .ok (mineGrammar m.parser.grammar m.parser.parse samples)

/-- The embedding of `get_final_grammar` from
`src/resources/learn_grammar.py`, line by line: construct the miner
over `EarleyParser(grammar)`, call `mine_probabilistic_grammar` on the
inputs, return its result unchanged.  Exceptions (modelled as
`Except.error`) propagate to the caller. -/
def get_final_grammar (grammar : Grammar) (p : ParseFun) (test_inputs : List String) :
    Except MineError ProbGrammar := do
  let parser ← EarleyParser.make grammar p
  let probabilistic_grammar_miner := ProbabilisticGrammarMinerExtended.mk parser
  let probabilistic_grammar ←
    probabilistic_grammar_miner.mine_probabilistic_grammar test_inputs
  return probabilistic_grammar

/-- Bool test formalizing "this derivation tree always chooses
alternative `i` whenever it expands `N`" (over the `n` alternative
indices of `N`). -/
def treeOnly (N : String) (i n : ℕ) (t : DTree) : Bool :=
  (List.range n).all (fun j => j == i || t.choiceCount N j == 0)

/-- Bool test formalizing "every sample's derivation tree always
chooses alternative `i` whenever it expands `N`". -/
def samplesOnly (p : ParseFun) (samples : List String) (N : String) (i n : ℕ) : Bool :=
  samples.all (fun s =>
    match p s with
    | some tr => treeOnly N i n tr
    | none => true)

/-- The probability the mined rule attaches to alternative index `i`. -/
def probAt (r : List (Alternative × ℚ)) (i : ℕ) : ℚ :=
  (r.map Prod.snd).getD i 0

/-! ### The concrete scenario of the spec:
grammar `S -> "a" N, N -> "x" | "y"`, samples `ax, ax, ay`. -/

def exGrammar : Grammar :=
  [("<start>", [[.t "a", .nt "N"]]),
   ("N", [[.t "x"], [.t "y"]])]

def treeAX : DTree := .node "<start>" 0 [.leaf "a", .node "N" 0 [.leaf "x"]]

def treeAY : DTree := .node "<start>" 0 [.leaf "a", .node "N" 1 [.leaf "y"]]

/-- The parsing collaborator for `exGrammar`: it parses `"ax"` and
`"ay"` to their derivation trees and fails on everything else. -/
def exParse : ParseFun := fun s =>
  if s = "ax" then some treeAX else if s = "ay" then some treeAY else none

/-- A grammar with a dangling nonterminal reference (`"M"` is not a
key), violating the well-formedness invariant. -/
def badGrammar : Grammar :=
  [("<start>", [[.nt "M"]])]

/-! ### Helper lemmas about the choice counter -/

theorem choiceCountSamples_nil (p : ParseFun) (N : String) (i : ℕ) :
    choiceCountSamples p [] N i = 0 := rfl

theorem choiceCountSamples_cons (p : ParseFun) (s : String) (samples : List String)
    (N : String) (i : ℕ) :
    choiceCountSamples p (s :: samples) N i =
      (match p s with | some tr => tr.choiceCount N i | none => 0) +
        choiceCountSamples p samples N i := by
  simp [choiceCountSamples]

theorem choiceCountSamples_append (p : ParseFun) (s t : List String) (N : String) (i : ℕ) :
    choiceCountSamples p (s ++ t) N i =
      choiceCountSamples p s N i + choiceCountSamples p t N i := by
  simp [choiceCountSamples]

theorem choiceCountSamples_filter (p : ParseFun) (samples : List String) (N : String) (i : ℕ) :
    choiceCountSamples p (samples.filter (fun s => (p s).isSome)) N i =
      choiceCountSamples p samples N i := by
  induction samples with
  | nil => rfl
  | cons s ss ih =>
    rw [List.filter_cons]
    by_cases h : (p s).isSome
    · simp only [h, if_pos]
      rw [choiceCountSamples_cons, choiceCountSamples_cons, ih]
    · have hnone : p s = none := Option.not_isSome_iff_eq_none.mp (by simpa using h)
      simp only [h]
      rw [if_neg (by simp), ih, choiceCountSamples_cons, hnone]
      simp

theorem choiceCountSamples_congr (p₁ p₂ : ParseFun) (samples : List String)
    (N : String) (i : ℕ) (h : ∀ s ∈ samples, p₁ s = p₂ s) :
    choiceCountSamples p₁ samples N i = choiceCountSamples p₂ samples N i := by
  unfold choiceCountSamples
  congr 1
  exact List.map_congr_left (fun s hs => by rw [h s hs])

theorem ruleCounts_length (p : ParseFun) (samples : List String) (N : String) (n : ℕ) :
    (ruleCounts p samples N n).length = n := by
  simp [ruleCounts]

theorem ruleCounts_getElem (p : ParseFun) (samples : List String) (N : String)
    (n i : ℕ) (hi : i < n) :
    (ruleCounts p samples N n)[i]? = some (choiceCountSamples p samples N i) := by
  rw [ruleCounts, List.getElem?_map, List.getElem?_range hi]
  rfl

/-! ### Helper lemmas about the mined rule -/

theorem list_sum_div (l : List ℚ) (T : ℚ) :
    (l.map (fun c => c / T)).sum = l.sum / T := by
  induction l with
  | nil => simp
  | cons a l ih => simp [ih, add_div]

theorem mineRule_length (p : ParseFun) (samples : List String) (N : String)
    (alts : List Alternative) :
    (mineRule p samples N alts).length = alts.length := by
  unfold mineRule uniformRule
  split
  · simp
  · simp only [List.length_zip, List.length_map, ruleCounts_length, min_self]

theorem mineRule_map_fst (p : ParseFun) (samples : List String) (N : String)
    (alts : List Alternative) :
    (mineRule p samples N alts).map Prod.fst = alts := by
  unfold mineRule uniformRule
  split
  · rw [List.map_map]
    exact List.map_id _
  · exact List.map_fst_zip _ _ (by simp only [List.length_map, ruleCounts_length, le_refl])

theorem mineRule_map_snd (p : ParseFun) (samples : List String) (N : String)
    (alts : List Alternative) :
    (mineRule p samples N alts).map Prod.snd =
      if (ruleCounts p samples N alts.length).sum = 0 then
        alts.map (fun _ => 1 / (alts.length : ℚ))
      else
        (ruleCounts p samples N alts.length).map
          (fun c : ℕ => (c : ℚ) / ((ruleCounts p samples N alts.length).sum : ℚ)) := by
  unfold mineRule uniformRule
  split
  · rw [List.map_map]
    rfl
  · exact List.map_snd_zip _ _ (by simp only [List.length_map, ruleCounts_length, le_refl])

theorem mineRule_snd_sum (p : ParseFun) (samples : List String) (N : String)
    (alts : List Alternative) (h : alts ≠ []) :
    ((mineRule p samples N alts).map Prod.snd).sum = 1 := by
  have hlen : alts.length ≠ 0 := by simpa using h
  have hn : (alts.length : ℚ) ≠ 0 := Nat.cast_ne_zero.mpr hlen
  rw [mineRule_map_snd]
  split
  · rw [List.map_const', List.sum_replicate, nsmul_eq_mul, mul_one_div, div_self hn]
  · rename_i hT
    have hcast : (ruleCounts p samples N alts.length).map
        (fun c : ℕ => (c : ℚ) / ((ruleCounts p samples N alts.length).sum : ℚ)) =
        ((ruleCounts p samples N alts.length).map (Nat.cast : ℕ → ℚ)).map
          (fun c => c / ((ruleCounts p samples N alts.length).sum : ℚ)) := by
      rw [List.map_map]
      rfl
    rw [hcast, list_sum_div, ← Nat.cast_list_sum, div_self]
    exact Nat.cast_ne_zero.mpr hT

theorem mineRule_snd_mem_unit (p : ParseFun) (samples : List String) (N : String)
    (alts : List Alternative) (h : alts ≠ []) (q : ℚ)
    (hq : q ∈ (mineRule p samples N alts).map Prod.snd) : 0 ≤ q ∧ q ≤ 1 := by
  have hlen : alts.length ≠ 0 := by simpa using h
  have hn : (1 : ℚ) ≤ (alts.length : ℚ) := by exact_mod_cast Nat.one_le_iff_ne_zero.mpr hlen
  rw [mineRule_map_snd] at hq
  split at hq
  · rw [List.mem_map] at hq
    obtain ⟨a, _, rfl⟩ := hq
    constructor
    · positivity
    · rw [div_le_one (by linarith)]
      exact hn
  · rename_i hT
    rw [List.mem_map] at hq
    obtain ⟨c, hc, rfl⟩ := hq
    have hcT : c ≤ (ruleCounts p samples N alts.length).sum :=
      List.single_le_sum (fun x _ => Nat.zero_le x) c hc
    have hTpos : 0 < ((ruleCounts p samples N alts.length).sum : ℚ) := by
      exact_mod_cast Nat.pos_of_ne_zero hT
    constructor
    · positivity
    · rw [div_le_one hTpos]
      exact_mod_cast hcT

theorem mineRule_snd_getElem (p : ParseFun) (samples : List String) (N : String)
    (alts : List Alternative) (i : ℕ) (hi : i < alts.length)
    (hT : (ruleCounts p samples N alts.length).sum ≠ 0) :
    ((mineRule p samples N alts).map Prod.snd)[i]? =
      some ((choiceCountSamples p samples N i : ℚ) /
        ((ruleCounts p samples N alts.length).sum : ℚ)) := by
  rw [mineRule_map_snd, if_neg hT, List.getElem?_map,
    ruleCounts_getElem p samples N alts.length i hi]
  rfl

theorem probAt_mineRule_pos (p : ParseFun) (samples : List String) (N : String)
    (alts : List Alternative) (i : ℕ) (hi : i < alts.length)
    (hT : (ruleCounts p samples N alts.length).sum ≠ 0) :
    probAt (mineRule p samples N alts) i =
      (choiceCountSamples p samples N i : ℚ) /
        ((ruleCounts p samples N alts.length).sum : ℚ) := by
  rw [probAt, List.getD_eq_getElem?_getD, mineRule_snd_getElem p samples N alts i hi hT]
  rfl

theorem probAt_mineRule_zero (p : ParseFun) (samples : List String) (N : String)
    (alts : List Alternative) (i : ℕ) (hi : i < alts.length)
    (hT : (ruleCounts p samples N alts.length).sum = 0) :
    probAt (mineRule p samples N alts) i = 1 / (alts.length : ℚ) := by
  rw [probAt, List.getD_eq_getElem?_getD, mineRule_map_snd, if_pos hT,
    List.getElem?_map, List.getElem?_eq_getElem hi]
  rfl

theorem mineRule_congr_counts (p₁ p₂ : ParseFun) (samples₁ samples₂ : List String)
    (N : String) (alts : List Alternative)
    (h : ∀ i, choiceCountSamples p₁ samples₁ N i = choiceCountSamples p₂ samples₂ N i) :
    mineRule p₁ samples₁ N alts = mineRule p₂ samples₂ N alts := by
  have hrc : ruleCounts p₁ samples₁ N alts.length = ruleCounts p₂ samples₂ N alts.length := by
    unfold ruleCounts
    exact List.map_congr_left (fun i _ => h i)
  unfold mineRule
  rw [hrc]

theorem choiceCountSamples_of_all_fail (p : ParseFun) (samples : List String)
    (N : String) (i : ℕ) (h : ∀ s ∈ samples, p s = none) :
    choiceCountSamples p samples N i = 0 := by
  induction samples with
  | nil => rfl
  | cons s ss ih =>
    rw [choiceCountSamples_cons, h s (by simp), ih (fun x hx => h x (by simp [hx]))]

theorem sum_range_map_add (n : ℕ) (f g : ℕ → ℕ) :
    ((List.range n).map (fun j => f j + g j)).sum =
      ((List.range n).map f).sum + ((List.range n).map g).sum := by
  induction n with
  | zero => rfl
  | succ n ih =>
    rw [List.range_succ]
    simp only [List.map_append, List.sum_append, ih, List.map_cons, List.map_nil,
      List.sum_cons, List.sum_nil]
    omega

theorem sum_range_map_eq_single (n : ℕ) (f : ℕ → ℕ) (i : ℕ) (hi : i < n)
    (h : ∀ j, j < n → j ≠ i → f j = 0) :
    ((List.range n).map f).sum = f i := by
  induction n with
  | zero => omega
  | succ n ih =>
    rw [List.range_succ, List.map_append, List.sum_append]
    by_cases hin : i = n
    · subst hin
      have hz : ((List.range i).map f).sum = 0 := by
        apply List.sum_eq_zero
        intro x hx
        rw [List.mem_map] at hx
        obtain ⟨j, hj, rfl⟩ := hx
        rw [List.mem_range] at hj
        exact h j (by omega) (by omega)
      simp [hz]
    · have hi' : i < n := by omega
      rw [ih hi' (fun j hj hne => h j (by omega) hne)]
      have hfn : f n = 0 := h n (by omega) (by omega)
      simp [hfn]

theorem treeOnly_count (N : String) (i n j : ℕ) (t : DTree)
    (h : treeOnly N i n t = true) (hj : j < n) (hne : j ≠ i) :
    t.choiceCount N j = 0 := by
  unfold treeOnly at h
  rw [List.all_eq_true] at h
  have hx := h j (List.mem_range.mpr hj)
  simp only [Bool.or_eq_true, beq_iff_eq] at hx
  rcases hx with h1 | h2
  · exact absurd h1 hne
  · exact h2

theorem samplesOnly_count (p : ParseFun) (samples : List String) (N : String)
    (i n j : ℕ) (h : samplesOnly p samples N i n = true) (hj : j < n) (hne : j ≠ i) :
    choiceCountSamples p samples N j = 0 := by
  induction samples with
  | nil => rfl
  | cons s ss ih =>
    unfold samplesOnly at h
    rw [List.all_cons, Bool.and_eq_true] at h
    obtain ⟨h1, h2⟩ := h
    rw [choiceCountSamples_cons, ih h2]
    cases hps : p s with
    | none => simp [hps]
    | some tr =>
      rw [hps] at h1
      show tr.choiceCount N j + 0 = 0
      rw [treeOnly_count N i n j tr h1 hj hne]

/-! ### Structural lemmas about `get_final_grammar` -/

theorem get_final_grammar_ok (g : Grammar) (p : ParseFun) (samples : List String)
    (hw : wellFormed g = true) :
    get_final_grammar g p samples = .ok (mineGrammar g p samples) := by
  unfold get_final_grammar EarleyParser.make
  rw [if_pos hw]
  rfl

theorem get_final_grammar_bad (g : Grammar) (p : ParseFun) (samples : List String)
    (hw : wellFormed g = false) :
    get_final_grammar g p samples = .error .malformedGrammar := by
  unfold get_final_grammar EarleyParser.make
  rw [if_neg (by simp [hw])]
  rfl

/-! ### The claims -/

/-- Claim C1: after counting how often each alternative of each
nonterminal was chosen across the derivation trees of all parsed
samples, the miner assigns each alternative `i` of a nonterminal `N`
whose total count is positive the probability `count(N,i) / total`;
in particular, for the grammar `S -> "a" N, N -> "x" | "y"` and
samples `ax, ax, ay`, the output probability of `N -> "x"` is `2/3`
and of `N -> "y"` is `1/3`. -/
theorem claim_C1 (p : ParseFun) (samples : List String) (N : String)
    (alts : List Alternative) (i : ℕ) (hi : i < alts.length)
    (hT : (ruleCounts p samples N alts.length).sum ≠ 0) :
    ((mineRule p samples N alts).map Prod.fst = alts ∧
      ((mineRule p samples N alts).map Prod.snd)[i]? =
        some ((choiceCountSamples p samples N i : ℚ) /
          ((ruleCounts p samples N alts.length).sum : ℚ))) ∧
    get_final_grammar exGrammar exParse ["ax", "ax", "ay"] =
      .ok [("<start>", [([.t "a", .nt "N"], 1)]),
           ("N", [([.t "x"], 2/3), ([.t "y"], 1/3)])] := by
  refine ⟨⟨mineRule_map_fst p samples N alts, mineRule_snd_getElem p samples N alts i hi hT⟩, ?_⟩
  rw [get_final_grammar_ok exGrammar exParse _ (by decide)]
  simp [mineGrammar, mineRule, ruleCounts, choiceCountSamples, exParse, exGrammar,
    treeAX, treeAY, DTree.choiceCount, choiceCountList, uniformRule, List.range_succ]
  norm_num

theorem claim_C1_witness :
    ((0 : ℕ) < ([[Symbol.t "x"], [Symbol.t "y"]] : List Alternative).length ∧
      (ruleCounts exParse ["ax", "ax", "ay"] "N"
        ([[Symbol.t "x"], [Symbol.t "y"]] : List Alternative).length).sum ≠ 0) ∧
    (((mineRule exParse ["ax", "ax", "ay"] "N" [[Symbol.t "x"], [Symbol.t "y"]]).map Prod.fst =
        [[Symbol.t "x"], [Symbol.t "y"]] ∧
      ((mineRule exParse ["ax", "ax", "ay"] "N" [[Symbol.t "x"], [Symbol.t "y"]]).map
          Prod.snd)[0]? =
        some ((choiceCountSamples exParse ["ax", "ax", "ay"] "N" 0 : ℚ) /
          ((ruleCounts exParse ["ax", "ax", "ay"] "N"
            ([[Symbol.t "x"], [Symbol.t "y"]] : List Alternative).length).sum : ℚ))) ∧
      get_final_grammar exGrammar exParse ["ax", "ax", "ay"] =
        .ok [("<start>", [([.t "a", .nt "N"], 1)]),
             ("N", [([.t "x"], 2/3), ([.t "y"], 1/3)])]) :=
  ⟨⟨by decide, by decide⟩,
   claim_C1 exParse ["ax", "ax", "ay"] "N" [[Symbol.t "x"], [Symbol.t "y"]] 0
     (by decide) (by decide)⟩

/-- A grammar that satisfies the well-formedness invariant of the
spec (the start symbol is a key, and no alternative references a
missing nonterminal) but whose start symbol has zero alternatives. -/
def emptyAltGrammar : Grammar := [("<start>", [])]

/-- Counterexample to claim C2 as stated: `emptyAltGrammar` is
well-formed, yet in the mined grammar the probabilities attached to
the alternatives of `"<start>"` (there are none) sum to 0, not 1. -/
theorem claim_C2_counterexample :
    wellFormed emptyAltGrammar = true ∧
    ("<start>", ([] : List (Alternative × ℚ))) ∈ mineGrammar emptyAltGrammar exParse [] ∧
    ((([] : List (Alternative × ℚ)).map Prod.snd).sum ≠ 1) := by
  refine ⟨by decide, ?_, by norm_num⟩
  show ("<start>", ([] : List (Alternative × ℚ))) ∈
    [("<start>", mineRule exParse [] "<start>" [])]
  rw [show mineRule exParse [] "<start>" [] = ([] : List (Alternative × ℚ)) from rfl]
  exact List.mem_singleton.mpr rfl

/-- Claim C2, amended: for every grammar in which every nonterminal
has at least one alternative and every sample set, the mined
probabilistic grammar gives every nonterminal probabilities that are
each in the unit interval and sum to exactly 1 (probabilities are
exact rationals here, so equality holds within any floating-point
tolerance). -/
theorem claim_C2 (g : Grammar) (p : ParseFun) (samples : List String)
    (hne : ∀ r ∈ g, r.2 ≠ []) :
    ∀ r ∈ mineGrammar g p samples,
      (r.2.map Prod.snd).sum = 1 ∧ ∀ q ∈ r.2.map Prod.snd, 0 ≤ q ∧ q ≤ 1 := by
  intro r hr
  unfold mineGrammar at hr
  rw [List.mem_map] at hr
  obtain ⟨r0, hr0, rfl⟩ := hr
  exact ⟨mineRule_snd_sum p samples r0.1 r0.2 (hne r0 hr0),
    fun q hq => mineRule_snd_mem_unit p samples r0.1 r0.2 (hne r0 hr0) q hq⟩

theorem claim_C2_witness :
    (∀ r ∈ exGrammar, r.2 ≠ []) ∧
    ∀ r ∈ mineGrammar exGrammar exParse ["ax", "ax", "ay"],
      (r.2.map Prod.snd).sum = 1 ∧ ∀ q ∈ r.2.map Prod.snd, 0 ≤ q ∧ q ≤ 1 :=
  ⟨by decide, claim_C2 exGrammar exParse ["ax", "ax", "ay"] (by decide)⟩

/-- Claim C3: a nonterminal whose alternatives were never chosen by
any sample's derivation (total count 0) receives the uniform
distribution, each alternative getting one over the number of
alternatives; the miner returns a probabilistic grammar rather than
failing on every sample set, and on a sample set where every sample
fails to parse (in particular the empty set) the returned grammar is
uniform everywhere. -/
theorem claim_C3 (g : Grammar) (p : ParseFun) (samples : List String)
    (N : String) (alts : List Alternative)
    (hw : wellFormed g = true)
    (hz : (ruleCounts p samples N alts.length).sum = 0) :
    mineRule p samples N alts = alts.map (fun a => (a, 1 / (alts.length : ℚ))) ∧
    (∃ pg : ProbGrammar, get_final_grammar g p samples = .ok pg) ∧
    ((∀ s ∈ samples, p s = none) →
      get_final_grammar g p samples = .ok (g.map (fun r => (r.1, uniformRule r.2)))) := by
  refine ⟨?_, ⟨mineGrammar g p samples, get_final_grammar_ok g p samples hw⟩, ?_⟩
  · show mineRule p samples N alts = uniformRule alts
    unfold mineRule
    rw [if_pos hz]
  · intro hfail
    rw [get_final_grammar_ok g p samples hw]
    congr 1
    unfold mineGrammar
    apply List.map_congr_left
    intro r _
    have hz2 : (ruleCounts p samples r.1 r.2.length).sum = 0 := by
      apply List.sum_eq_zero
      intro x hx
      rw [ruleCounts, List.mem_map] at hx
      obtain ⟨j, _, rfl⟩ := hx
      exact choiceCountSamples_of_all_fail p samples r.1 j hfail
    rw [show mineRule p samples r.1 r.2 = uniformRule r.2 from by
      unfold mineRule; rw [if_pos hz2]]

theorem claim_C3_witness :
    (wellFormed exGrammar = true ∧
      (ruleCounts exParse ["zz"] "N"
        ([[Symbol.t "x"], [Symbol.t "y"]] : List Alternative).length).sum = 0) ∧
    (mineRule exParse ["zz"] "N" [[Symbol.t "x"], [Symbol.t "y"]] =
        [[Symbol.t "x"], [Symbol.t "y"]].map
          (fun a => (a, 1 / (([[Symbol.t "x"], [Symbol.t "y"]] : List Alternative).length : ℚ))) ∧
      (∃ pg : ProbGrammar, get_final_grammar exGrammar exParse ["zz"] = .ok pg) ∧
      ((∀ s ∈ ["zz"], exParse s = none) →
        get_final_grammar exGrammar exParse ["zz"] =
          .ok (exGrammar.map (fun r => (r.1, uniformRule r.2))))) :=
  ⟨⟨by decide, by decide⟩,
   claim_C3 exGrammar exParse ["zz"] "N" [[Symbol.t "x"], [Symbol.t "y"]]
     (by decide) (by decide)⟩

/-- Claim C4: on a mix of samples that parse and samples that do not,
the miner neither raises nor aborts: it returns a probabilistic
grammar, each failing sample contributes no counts, and the result
equals the one computed from the subset of samples that did parse. -/
theorem claim_C4 (g : Grammar) (p : ParseFun) (samples : List String)
    (hw : wellFormed g = true) :
    (∃ pg : ProbGrammar, get_final_grammar g p samples = .ok pg) ∧
    get_final_grammar g p samples =
      get_final_grammar g p (samples.filter (fun s => (p s).isSome)) := by
  refine ⟨⟨mineGrammar g p samples, get_final_grammar_ok g p samples hw⟩, ?_⟩
  rw [get_final_grammar_ok g p samples hw, get_final_grammar_ok g p _ hw]
  congr 1
  unfold mineGrammar
  apply List.map_congr_left
  intro r _
  exact congrArg (fun x => (r.1, x))
    (mineRule_congr_counts p p samples (samples.filter fun s => (p s).isSome) r.1 r.2
      (fun i => (choiceCountSamples_filter p samples r.1 i).symm))

theorem claim_C4_witness :
    (wellFormed exGrammar = true) ∧
    ((∃ pg : ProbGrammar, get_final_grammar exGrammar exParse ["ax", "zz", "ay"] = .ok pg) ∧
      get_final_grammar exGrammar exParse ["ax", "zz", "ay"] =
        get_final_grammar exGrammar exParse
          (["ax", "zz", "ay"].filter (fun s => (exParse s).isSome))) :=
  ⟨by decide, claim_C4 exGrammar exParse ["ax", "zz", "ay"] (by decide)⟩

/-- Claim C5: mining is deterministic and referentially transparent:
for the same grammar and samples, and parsers that behave the same on
every sample, the resulting probability assignments are identical. -/
theorem claim_C5 (g : Grammar) (p₁ p₂ : ParseFun) (samples : List String)
    (hp : ∀ s ∈ samples, p₁ s = p₂ s) :
    get_final_grammar g p₁ samples = get_final_grammar g p₂ samples := by
  cases hw : wellFormed g
  · rw [get_final_grammar_bad g p₁ samples hw, get_final_grammar_bad g p₂ samples hw]
  · rw [get_final_grammar_ok g p₁ samples hw, get_final_grammar_ok g p₂ samples hw]
    congr 1
    unfold mineGrammar
    apply List.map_congr_left
    intro r _
    exact congrArg (fun x => (r.1, x))
      (mineRule_congr_counts p₁ p₂ samples samples r.1 r.2
        (fun i => choiceCountSamples_congr p₁ p₂ samples r.1 i hp))

/-- A second parsing collaborator that agrees with `exParse` on the
sample `"ax"` but not elsewhere. -/
def exParse2 : ParseFun := fun s =>
  if s = "ax" then some treeAX else none

theorem claim_C5_witness :
    (∀ s ∈ ["ax"], exParse s = exParse2 s) ∧
    get_final_grammar exGrammar exParse ["ax"] =
      get_final_grammar exGrammar exParse2 ["ax"] :=
  ⟨by
    intro s hs
    rw [List.mem_singleton] at hs
    subst hs
    rfl,
   claim_C5 exGrammar exParse exParse2 ["ax"]
     (by
      intro s hs
      rw [List.mem_singleton] at hs
      subst hs
      rfl)⟩

/-- A grammar whose nonterminal `"N"` is never reached from the start
symbol: `<start> -> "a"`, `N -> "x" | "y"`. -/
def g6 : Grammar :=
  [("<start>", [[.t "a"]]), ("N", [[.t "x"], [.t "y"]])]

/-- The parsing collaborator for `g6`: only `"a"` parses, and its
derivation tree never expands `"N"`. -/
def parse6 : ParseFun := fun s =>
  if s = "a" then some (.node "<start>" 0 [.leaf "a"]) else none

/-- Counterexample to claim C6 as stated: with grammar `g6` and the
single sample `"a"`, every sample's derivation tree chooses
alternative 0 of `"N"` whenever it expands `"N"` (vacuously, since
`"N"` is never expanded), yet alternative 0 does not receive
probability 1 — the total count is 0, so the uniform fallback gives
it 1/2. -/
theorem claim_C6_counterexample :
    samplesOnly parse6 ["a"] "N" 0 2 = true ∧
    probAt (mineRule parse6 ["a"] "N" [[.t "x"], [.t "y"]]) 0 ≠ 1 := by
  refine ⟨by decide, ?_⟩
  rw [probAt_mineRule_zero parse6 ["a"] "N" [[.t "x"], [.t "y"]] 0 (by decide) (by decide)]
  norm_num

/-- Claim C6, amended: if every sample's derivation tree chooses
alternative `i` whenever it expands `N` and `N` is expanded at least
once across the samples, then alternative `i` of `N` receives
probability 1 and every other alternative of `N` receives 0. -/
theorem claim_C6 (p : ParseFun) (samples : List String) (N : String)
    (alts : List Alternative) (i : ℕ) (hi : i < alts.length)
    (honly : samplesOnly p samples N i alts.length = true)
    (hpos : 0 < choiceCountSamples p samples N i) :
    (mineRule p samples N alts).map Prod.snd =
      (List.range alts.length).map (fun j => if j = i then (1 : ℚ) else 0) := by
  have hz : ∀ j, j < alts.length → j ≠ i → choiceCountSamples p samples N j = 0 :=
    fun j hj hne => samplesOnly_count p samples N i alts.length j honly hj hne
  have hsum : (ruleCounts p samples N alts.length).sum = choiceCountSamples p samples N i := by
    unfold ruleCounts
    exact sum_range_map_eq_single alts.length _ i hi hz
  have hT : (ruleCounts p samples N alts.length).sum ≠ 0 := by
    rw [hsum]
    omega
  rw [mineRule_map_snd, if_neg hT, hsum]
  unfold ruleCounts
  rw [List.map_map]
  apply List.map_congr_left
  intro j hj
  rw [List.mem_range] at hj
  simp only [Function.comp_apply]
  by_cases hji : j = i
  · rw [hji, if_pos rfl, div_self (by exact_mod_cast hpos.ne')]
  · rw [if_neg hji, hz j hj hji]
    simp

theorem claim_C6_witness :
    ((0 : ℕ) < ([[Symbol.t "x"], [Symbol.t "y"]] : List Alternative).length ∧
      samplesOnly exParse ["ax", "ax"] "N" 0
        ([[Symbol.t "x"], [Symbol.t "y"]] : List Alternative).length = true ∧
      0 < choiceCountSamples exParse ["ax", "ax"] "N" 0) ∧
    (mineRule exParse ["ax", "ax"] "N" [[Symbol.t "x"], [Symbol.t "y"]]).map Prod.snd =
      (List.range ([[Symbol.t "x"], [Symbol.t "y"]] : List Alternative).length).map
        (fun j => if j = 0 then (1 : ℚ) else 0) :=
  ⟨⟨by decide, by decide, by decide⟩,
   claim_C6 exParse ["ax", "ax"] "N" [[Symbol.t "x"], [Symbol.t "y"]] 0
     (by decide) (by decide) (by decide)⟩

/-- The parsing collaborator for the monotonicity scenario: grammar
`<start> -> N`, `N -> "x" | "y"`; `"x"` chooses alternative 0 of
`"N"`, `"y"` chooses alternative 1. -/
def parse7 : ParseFun := fun s =>
  if s = "x" then some (.node "<start>" 0 [.node "N" 0 [.leaf "x"]])
  else if s = "y" then some (.node "<start>" 0 [.node "N" 1 [.leaf "y"]])
  else none

def base7 : List String := ["x"]

def extra7 : List String := ["x", "y", "y", "y"]

/-- Counterexample to claim C7 as stated: the added samples `extra7`
exercise alternative 0 of `"N"` at least once more (once, via `"x"`),
yet alternative 0's estimated probability drops from 1 to 2/5,
because the added samples also exercise alternative 1 three times. -/
theorem claim_C7_counterexample :
    0 < choiceCountSamples parse7 extra7 "N" 0 ∧
    probAt (mineRule parse7 (base7 ++ extra7) "N" [[.t "x"], [.t "y"]]) 0 <
      probAt (mineRule parse7 base7 "N" [[.t "x"], [.t "y"]]) 0 := by
  refine ⟨by decide, ?_⟩
  rw [probAt_mineRule_pos parse7 base7 "N" [[.t "x"], [.t "y"]] 0 (by decide) (by decide),
    probAt_mineRule_pos parse7 (base7 ++ extra7) "N" [[.t "x"], [.t "y"]] 0
      (by decide) (by decide),
    show choiceCountSamples parse7 base7 "N" 0 = 1 from by decide,
    show choiceCountSamples parse7 (base7 ++ extra7) "N" 0 = 2 from by decide,
    show (ruleCounts parse7 base7 "N"
      ([[Symbol.t "x"], [Symbol.t "y"]] : List Alternative).length).sum = 1 from by decide,
    show (ruleCounts parse7 (base7 ++ extra7) "N"
      ([[Symbol.t "x"], [Symbol.t "y"]] : List Alternative).length).sum = 5 from by decide]
  norm_num

/-- Claim C7, amended: extending the samples with additional samples
whose derivations exercise alternative `i` of `N` at least once more
and exercise no other alternative of `N` cannot decrease `i`'s
estimated probability. -/
theorem claim_C7 (p : ParseFun) (samples extra : List String) (N : String)
    (alts : List Alternative) (i : ℕ) (hi : i < alts.length)
    (hplus : 0 < choiceCountSamples p extra N i)
    (hother : ∀ j, j < alts.length → j ≠ i → choiceCountSamples p extra N j = 0) :
    probAt (mineRule p samples N alts) i ≤
      probAt (mineRule p (samples ++ extra) N alts) i := by
  have hcc := fun j => choiceCountSamples_append p samples extra N j
  have hrc : ruleCounts p (samples ++ extra) N alts.length =
      (List.range alts.length).map
        (fun j => choiceCountSamples p samples N j + choiceCountSamples p extra N j) := by
    unfold ruleCounts
    exact List.map_congr_left (fun j _ => hcc j)
  have hextra : ((List.range alts.length).map
      (fun j => choiceCountSamples p extra N j)).sum = choiceCountSamples p extra N i :=
    sum_range_map_eq_single alts.length _ i hi hother
  have hsum' : (ruleCounts p (samples ++ extra) N alts.length).sum =
      (ruleCounts p samples N alts.length).sum + choiceCountSamples p extra N i := by
    rw [hrc, sum_range_map_add alts.length (fun j => choiceCountSamples p samples N j)
      (fun j => choiceCountSamples p extra N j), hextra]
    rfl
  have haneq : (ruleCounts p (samples ++ extra) N alts.length).sum ≠ 0 := by
    rw [hsum']
    omega
  have hafter : probAt (mineRule p (samples ++ extra) N alts) i =
      ((choiceCountSamples p samples N i + choiceCountSamples p extra N i : ℕ) : ℚ) /
        (((ruleCounts p samples N alts.length).sum + choiceCountSamples p extra N i : ℕ) : ℚ) := by
    rw [probAt_mineRule_pos p (samples ++ extra) N alts i hi haneq, hcc i, hsum']
  have hmem : choiceCountSamples p samples N i ∈ ruleCounts p samples N alts.length := by
    unfold ruleCounts
    exact List.mem_map.mpr ⟨i, List.mem_range.mpr hi, rfl⟩
  have hcT : choiceCountSamples p samples N i ≤ (ruleCounts p samples N alts.length).sum :=
    List.single_le_sum (fun x _ => Nat.zero_le x) _ hmem
  by_cases hT : (ruleCounts p samples N alts.length).sum = 0
  · have hc0 : choiceCountSamples p samples N i = 0 := by omega
    rw [probAt_mineRule_zero p samples N alts i hi hT, hafter, hc0, hT]
    simp only [Nat.zero_add]
    rw [div_self (by exact_mod_cast hplus.ne')]
    have hn1 : (1 : ℚ) ≤ (alts.length : ℚ) := by
      exact_mod_cast Nat.one_le_iff_ne_zero.mpr (by omega)
    rw [div_le_one (by linarith)]
    exact hn1
  · rw [probAt_mineRule_pos p samples N alts i hi hT, hafter]
    have hT0 : (0 : ℚ) < ((ruleCounts p samples N alts.length).sum : ℚ) := by
      exact_mod_cast Nat.pos_of_ne_zero hT
    have ha0 : (0 : ℚ) ≤ (choiceCountSamples p extra N i : ℚ) := Nat.cast_nonneg _
    have hcTq : (choiceCountSamples p samples N i : ℚ) ≤
        ((ruleCounts p samples N alts.length).sum : ℚ) := by
      exact_mod_cast hcT
    rw [Nat.cast_add, Nat.cast_add, div_le_div_iff₀ hT0 (by linarith)]
    nlinarith [mul_nonneg ha0 (sub_nonneg.mpr hcTq)]

theorem claim_C7_witness :
    ((0 : ℕ) < ([[Symbol.t "x"], [Symbol.t "y"]] : List Alternative).length ∧
      0 < choiceCountSamples parse7 ["x"] "N" 0 ∧
      ∀ j, j < ([[Symbol.t "x"], [Symbol.t "y"]] : List Alternative).length → j ≠ 0 →
        choiceCountSamples parse7 ["x"] "N" j = 0) ∧
    probAt (mineRule parse7 base7 "N" [[Symbol.t "x"], [Symbol.t "y"]]) 0 ≤
      probAt (mineRule parse7 (base7 ++ ["x"]) "N" [[Symbol.t "x"], [Symbol.t "y"]]) 0 :=
  ⟨⟨by decide, by decide, by decide⟩,
   claim_C7 parse7 base7 ["x"] "N" [[Symbol.t "x"], [Symbol.t "y"]] 0
     (by decide) (by decide) (by decide)⟩

/-- Claim C8: if the grammar violates the well-formedness invariant,
a MalformedGrammar error is surfaced to the caller and no
probabilistic grammar is returned; the same error results whatever
the samples are, so the failure occurs before any sample is mined. -/
theorem claim_C8 (g : Grammar) (p : ParseFun) (samples : List String)
    (hw : wellFormed g = false) :
    get_final_grammar g p samples = .error .malformedGrammar ∧
    ∀ other : List String, get_final_grammar g p other = .error .malformedGrammar :=
  ⟨get_final_grammar_bad g p samples hw, fun other => get_final_grammar_bad g p other hw⟩

theorem claim_C8_witness :
    wellFormed badGrammar = false ∧
    (get_final_grammar badGrammar exParse ["ax"] = .error .malformedGrammar ∧
      ∀ other : List String,
        get_final_grammar badGrammar exParse other = .error .malformedGrammar) :=
  ⟨by decide, claim_C8 badGrammar exParse ["ax"] (by decide)⟩

/-- Claim C9: `get_final_grammar` contains no error handling and no
post-processing: its result is exactly the bind of the parser
construction with `mine_probabilistic_grammar` — an error from parser
construction propagates unchanged, and on success the returned value
is exactly the miner's result, unmodified. -/
theorem claim_C9 (g : Grammar) (p : ParseFun) (inputs : List String) :
    get_final_grammar g p inputs =
      (EarleyParser.make g p).bind (fun parser =>
        (ProbabilisticGrammarMinerExtended.mk parser).mine_probabilistic_grammar inputs) ∧
    (∀ e, EarleyParser.make g p = .error e →
      get_final_grammar g p inputs = .error e) ∧
    (∀ parser, EarleyParser.make g p = .ok parser →
      get_final_grammar g p inputs =
        (ProbabilisticGrammarMinerExtended.mk parser).mine_probabilistic_grammar inputs) := by
  refine ⟨?_, ?_, ?_⟩
  · unfold get_final_grammar
    cases EarleyParser.make g p <;> rfl
  · intro e he
    unfold get_final_grammar
    rw [he]
    rfl
  · intro parser hp2
    unfold get_final_grammar
    rw [hp2]
    rfl

theorem claim_C9_witness :
    (EarleyParser.make badGrammar exParse = .error .malformedGrammar ∧
      get_final_grammar badGrammar exParse [] = .error .malformedGrammar) ∧
    (EarleyParser.make exGrammar exParse = .ok ⟨exGrammar, exParse⟩ ∧
      get_final_grammar exGrammar exParse ["ax"] =
        (ProbabilisticGrammarMinerExtended.mk
          ⟨exGrammar, exParse⟩).mine_probabilistic_grammar ["ax"]) :=
  ⟨⟨rfl, (claim_C9 badGrammar exParse []).2.1 .malformedGrammar rfl⟩,
   ⟨rfl, (claim_C9 exGrammar exParse ["ax"]).2.2 ⟨exGrammar, exParse⟩ rfl⟩⟩

/-- The arguments of the Python function, threaded explicitly as a
frame so that (non-)mutation is observable. -/
structure PyFrame where
  grammar : Grammar
  test_inputs : List String

/-- The embedding of `get_final_grammar` threading its argument frame
explicitly: the source reads `grammar` (only passed to the
`EarleyParser` constructor) and `test_inputs` (only passed to
`mine_probabilistic_grammar`) and contains no assignment to either,
so the frame comes back with the result as it went in. -/
def get_final_grammar_exec (p : ParseFun) (fr : PyFrame) :
    (Except MineError ProbGrammar) × PyFrame :=
  ((do
    let parser ← EarleyParser.make fr.grammar p
    let probabilistic_grammar_miner := ProbabilisticGrammarMinerExtended.mk parser
    let probabilistic_grammar ←
      probabilistic_grammar_miner.mine_probabilistic_grammar fr.test_inputs
    return probabilistic_grammar),
   fr)

/-- Claim C10: `get_final_grammar` does not mutate its arguments: the
grammar and the test-input sequence after the call are the ones passed
in, and the produced value is the same as the argument-preserving
run's value. -/
theorem claim_C10 (p : ParseFun) (fr : PyFrame) :
    (get_final_grammar_exec p fr).2.grammar = fr.grammar ∧
    (get_final_grammar_exec p fr).2.test_inputs = fr.test_inputs ∧
    (get_final_grammar_exec p fr).1 = get_final_grammar fr.grammar p fr.test_inputs :=
  ⟨rfl, rfl, rfl⟩

end LearnGrammar
